import Mathlib

/-!
# Verification of the interview-prep research assistant (`main.py`)

Shallow embedding of the deterministic logic of the repository's single
script: the GitHub resource relevance filter and deduplicator
(`get_github_resources`), the static fallback resource table
(`get_improved_fallback_resources`), the query builder, and the
uncertainty-phrase post-processing of the generated company overview
(`generate_company_overview`, lines 107-113).

Python strings are modelled as Lean `String`s, with the handful of Python
string operations the script uses (`lower`, `strip`, `split`, `replace`,
substring containment `in`) re-implemented structurally over `List Char`
so that every definition evaluates by kernel reduction. `None`-able
Python values are modelled with `Option`.
-/

set_option autoImplicit false

namespace InterviewPrep

/-! ## Python string primitives -/

/-- ASCII model of Python `str.lower()` on a single character: shift an
uppercase ASCII letter down into lowercase, leave everything else alone. -/
def charLower (c : Char) : Char :=
  if 'A' ≤ c ∧ c ≤ 'Z' then Char.ofNat (c.toNat + 32) else c

/-- Python `str.lower()` (ASCII fragment). -/
def strLower (s : String) : String := ⟨s.data.map charLower⟩

/-- Python's ASCII whitespace characters, as recognised by `str.strip()`
and `str.split()`. -/
def pyIsSpace (c : Char) : Bool :=
  c = ' ' || c = '\t' || c = '\n' || c = '\r' || c = '\x0b' || c = '\x0c'

/-- Contiguous-occurrence test: `occursIn n h` holds iff the character
list `n` occurs contiguously inside `h`, the model of Python's substring
test `n in h`. -/
def occursIn (n : List Char) : List Char → Bool
  | [] => n.isEmpty
  | c :: t => n.isPrefixOf (c :: t) || occursIn n t

/-- Python `needle in hay` on strings. -/
def strIn (needle hay : String) : Bool := occursIn needle.data hay.data

/-- Python `str.strip()` (drop leading and trailing whitespace). -/
def pyStrip (s : String) : String :=
  ⟨((s.data.dropWhile pyIsSpace).reverse.dropWhile pyIsSpace).reverse⟩

/-- Helper for `pySplit`: accumulates the current word (reversed). -/
def splitWsAux : List Char → List Char → List (List Char)
  | [], cur => if cur.isEmpty then [] else [cur.reverse]
  | c :: t, cur =>
    if pyIsSpace c then
      if cur.isEmpty then splitWsAux t [] else cur.reverse :: splitWsAux t []
    else splitWsAux t (c :: cur)

/-- Python `str.split()` with no argument: split on whitespace runs,
discarding empty tokens. -/
def pySplit (s : String) : List String :=
  (splitWsAux s.data []).map (fun l => ⟨l⟩)

/-- Python `str.replace(' ', '')`: remove every space character. -/
def stripSpaces (s : String) : String := ⟨s.data.filter (fun c => c ≠ ' ')⟩

/-! ## Data model

A raw GitHub search record (`items` element) as the filter consumes it:
`name` and `full_name` default to `""` when absent (the code uses
`repo.get("name", "")` and indexes `repo["full_name"]` only on accepted
records, which GitHub always populates); `html_url` may be missing
(`repo.get("html_url")`) and `description` may be missing or null
(`repo.get("description") or ""`). -/

structure Repo where
  name : String
  full_name : String
  html_url : Option String
  description : Option String
  deriving DecidableEq, Repr

/-- An accepted resource before the transient `role_specific` flag is
stripped (the dict `{"name": ..., "url": ..., "role_specific": ...}`). -/
structure Resource where
  name : String
  url : String
  role_specific : Bool
  deriving DecidableEq, Repr

/-- A returned resource `{name, url}`, as rendered by the UI and as stored
in the fallback table. -/
structure FinalRes where
  name : String
  url : String
  deriving DecidableEq, Repr

/-! ## `get_github_resources` (main.py lines 196-317) -/

/-- The fixed interview keyword list (main.py lines 252-257). -/
def interview_keywords : List String :=
  ["interview question", "hiring process", "coding challenge",
   "assessment", "interview experience", "interview prep",
   "technical interview", "onsite interview", "online assessment",
   "leetcode", "interview problem"]

/-- Python truthiness test `job_role and job_role.strip()` guarding every
role-specific branch of `get_github_resources`. -/
def roleActive : Option String → Bool
  | none => false
  | some r => !(r == "") && !(pyStrip r == "")

/-- The normalised role `job_role.strip().lower()` (the value the local
variable `job_role` holds after line 261 when the role is active). -/
def roleNorm (job_role : Option String) : String :=
  strLower (pyStrip (job_role.getD ""))

/-- The effective keyword list: `interview_keywords` extended with
`[job_role, job_role.replace(' ', '')]` when a role is active
(main.py lines 260-263). -/
def effKeywords (job_role : Option String) : List String :=
  interview_keywords ++
    (if roleActive job_role then [roleNorm job_role, stripSpaces (roleNorm job_role)]
     else [])

/-- The whitespace-split role tokens `job_role.lower().split()` used for
the `role_specific` flag (main.py line 286). -/
def roleTermsOf (job_role : Option String) : List String :=
  pySplit (roleNorm job_role)

/-- The lowercase haystack `f"{name} {description}"` built from
`repo.get("name", "").lower()` and `(repo.get("description") or
"").lower()` (main.py lines 275-277). -/
def haystack (r : Repo) : String :=
  strLower r.name ++ " " ++ strLower (r.description.getD "")

/-- The accepted-resource dict built at main.py lines 290-294. -/
def mkRes (act : Bool) (terms : List String) (repo : Repo) (url : String) : Resource :=
  ⟨repo.full_name, url, act && terms.any (fun t => strIn t (haystack repo))⟩

/-- The filter/deduplication loop of `get_github_resources`
(main.py lines 266-300), processing `repos` in order with the running
`seen_urls` set (as a list) and accumulator `company_resources`:
skip a record with no URL or an already seen URL; skip when the haystack
lacks the lowercase company name; accept when any effective keyword
occurs in the haystack, recording the URL as seen; after any record that
reaches the keyword test, stop as soon as the accumulator holds
`max_results * 2` entries. -/
def processRepos (cL : String) (kws : List String) (act : Bool)
    (terms : List String) (maxr : Nat) :
    List Repo → List String → List Resource → List Resource
  | [], _, acc => acc
  | repo :: rest, seen, acc =>
    match repo.html_url with
    | none => processRepos cL kws act terms maxr rest seen acc
    | some url =>
      if url ∈ seen then processRepos cL kws act terms maxr rest seen acc
      else if strIn cL (haystack repo) then
        if kws.any (fun k => strIn k (haystack repo)) then
          if maxr * 2 ≤ (acc ++ [mkRes act terms repo url]).length then
            acc ++ [mkRes act terms repo url]
          else
            processRepos cL kws act terms maxr rest (url :: seen)
              (acc ++ [mkRes act terms repo url])
        else if maxr * 2 ≤ acc.length then acc
        else processRepos cL kws act terms maxr rest seen acc
      else processRepos cL kws act terms maxr rest seen acc

/-- The accepted list `company_resources` produced from the raw search
results before sorting and truncation. -/
def acceptedList (company : String) (job_role : Option String) (maxr : Nat)
    (repos : List Repo) : List Resource :=
  processRepos (strLower company) (effKeywords job_role) (roleActive job_role)
    (roleTermsOf job_role) maxr repos [] []

/-- Model of `company_resources.sort(key=lambda x: not x.get("role_specific",
False))` (main.py line 305): Python's sort is stable, and a stable sort by
the Boolean key `not role_specific` (`False < True`) is exactly the
order-preserving partition putting `role_specific` entries first. -/
def sortRoleFirst (l : List Resource) : List Resource :=
  l.filter (fun r => r.role_specific) ++ l.filter (fun r => !r.role_specific)

/-- The function `get_github_resources(company, job_role, max_results)`
restricted to
its deterministic core: the raw concatenated search results `repos` stand
for `all_results` (the HTTP layer is the external collaborator).
Mirrors main.py lines 247-317: empty `all_results` returns `[]`;
otherwise filter, optionally role-sort, drop the `role_specific` field,
and return the first `max_results` entries. -/
def get_github_resources (company : String) (job_role : Option String)
    (maxr : Nat) (repos : List Repo) : List FinalRes :=
  if repos.isEmpty then []
  else
    let acc := acceptedList company job_role maxr repos
    let sorted := if roleActive job_role then sortRoleFirst acc else acc
    (sorted.take maxr).map (fun r => ⟨r.name, r.url⟩)

/-- A record that fails one of the two relevance gates: its haystack lacks
the lowercase company name, or contains none of the effective interview
keywords. Such a record is never accepted and never marks its URL seen. -/
def gateRejected (company : String) (job_role : Option String) (r : Repo) : Bool :=
  !(strIn (strLower company) (haystack r)) ||
    !((effKeywords job_role).any (fun k => strIn k (haystack r)))

/-- The search query templates of main.py lines 205-223: five base
interview queries, preceded by four role-qualified queries when a role is
active. -/
def buildQueries (company : String) (job_role : Option String) : List String :=
  let base :=
    [s!"\"{company}\" interview questions",
     s!"{company} \"technical interview\"",
     s!"{company} \"coding interview\"",
     s!"{company} \"interview preparation\"",
     s!"{company} \"interview experience\""]
  if roleActive job_role then
    let r := roleNorm job_role
    [s!"\"{company}\" {r} interview",
     s!"{company} {r} \"interview questions\"",
     s!"{company} {r} \"technical interview\"",
     s!"{r} \"interview preparation\" {company}"] ++ base
  else base

/-! ## `get_improved_fallback_resources` (main.py lines 319-421) -/

/-- The static company fallback table, in Python dict insertion order
(main.py lines 326-365). -/
def companyFallbackTable : List (String × List FinalRes) :=
  [("amazon",
    [⟨"Amazon Interview Guide", "https://github.com/jwasham/coding-interview-university"⟩,
     ⟨"Amazon Assessment Questions", "https://github.com/twowaits/SDE-Interview-Questions/tree/master/Amazon"⟩,
     ⟨"Amazon Interview Questions", "https://github.com/krishnadey30/LeetCode-Questions-CompanyWise/blob/master/amazon_alltime.txt"⟩]),
   ("google",
    [⟨"Google Interview Questions", "https://github.com/mgechev/google-interview-preparation-problems"⟩,
     ⟨"Google Tech Dev Guide", "https://github.com/jayshah19949596/CodingInterviews"⟩,
     ⟨"Google Interview Resources", "https://github.com/krishnadey30/LeetCode-Questions-CompanyWise/blob/master/google_alltime.txt"⟩]),
   ("facebook",
    [⟨"Meta/Facebook Interview Questions", "https://github.com/twowaits/SDE-Interview-Questions/tree/master/Facebook"⟩,
     ⟨"Meta Technical Interview Guide", "https://github.com/khanhnamle1994/cracking-the-data-science-interview"⟩,
     ⟨"Facebook Interview Resources", "https://github.com/krishnadey30/LeetCode-Questions-CompanyWise/blob/master/facebook_alltime.txt"⟩]),
   ("meta",
    [⟨"Meta/Facebook Interview Questions", "https://github.com/twowaits/SDE-Interview-Questions/tree/master/Facebook"⟩,
     ⟨"Meta Technical Interview Guide", "https://github.com/khanhnamle1994/cracking-the-data-science-interview"⟩,
     ⟨"Facebook Interview Resources", "https://github.com/krishnadey30/LeetCode-Questions-CompanyWise/blob/master/facebook_alltime.txt"⟩]),
   ("microsoft",
    [⟨"Microsoft Interview Questions", "https://github.com/twowaits/SDE-Interview-Questions/tree/master/Microsoft"⟩,
     ⟨"Microsoft Interview Preparation", "https://github.com/Olshansk/interview"⟩,
     ⟨"Microsoft Interview Resources", "https://github.com/krishnadey30/LeetCode-Questions-CompanyWise/blob/master/microsoft_alltime.txt"⟩]),
   ("apple",
    [⟨"Apple Interview Preparation", "https://github.com/hxu296/leetcode-company-wise-problems-2022"⟩,
     ⟨"Apple Interview Questions", "https://github.com/krishnadey30/LeetCode-Questions-CompanyWise/blob/master/apple_alltime.txt"⟩,
     ⟨"Apple Technical Interview", "https://github.com/checkcheckzz/system-design-interview"⟩]),
   ("netflix",
    [⟨"Netflix Interview Questions", "https://github.com/twowaits/SDE-Interview-Questions"⟩,
     ⟨"Netflix Technical Interview", "https://github.com/yangshun/tech-interview-handbook"⟩]),
   ("tesla",
    [⟨"Tesla Interview Prep", "https://github.com/krishnadey30/LeetCode-Questions-CompanyWise"⟩,
     ⟨"Tesla Technical Questions", "https://github.com/h5bp/Front-end-Developer-Interview-Questions"⟩])]

/-- The static role fallback table, in Python dict insertion order
(main.py lines 368-393). -/
def roleFallbackTable : List (String × List FinalRes) :=
  [("software engineer",
    [⟨"Software Engineering Interview Preparation", "https://github.com/jwasham/coding-interview-university"⟩,
     ⟨"Software Engineer Coding Questions", "https://github.com/twowaits/SDE-Interview-Questions"⟩]),
   ("frontend",
    [⟨"Frontend Interview Questions", "https://github.com/h5bp/Front-end-Developer-Interview-Questions"⟩,
     ⟨"Frontend Interview Handbook", "https://github.com/yangshun/front-end-interview-handbook"⟩]),
   ("backend",
    [⟨"Backend Interview Questions", "https://github.com/arialdomartini/Back-End-Developer-Interview-Questions"⟩,
     ⟨"System Design for Backend Engineers", "https://github.com/donnemartin/system-design-primer"⟩]),
   ("data scientist",
    [⟨"Data Science Interview Resources", "https://github.com/khanhnamle1994/cracking-the-data-science-interview"⟩,
     ⟨"Data Science Interview Questions", "https://github.com/alexeygrigorev/data-science-interviews"⟩]),
   ("machine learning",
    [⟨"Machine Learning Interviews", "https://github.com/chiphuyen/machine-learning-systems-design"⟩,
     ⟨"ML Interview Guide", "https://github.com/khangich/machine-learning-interview"⟩]),
   ("devops",
    [⟨"DevOps Interview Questions", "https://github.com/bregman-arie/devops-exercises"⟩,
     ⟨"DevOps Resource Collection", "https://github.com/MichaelCade/90DaysOfDevOps"⟩])]

/-- The company lookup loop (main.py lines 399-402): first key with
`key in company_lower or company_lower in key` wins. -/
def findCompanyEntry (cl : String) : List (String × List FinalRes) → List FinalRes
  | [] => []
  | (k, v) :: rest =>
    if strIn k cl || strIn cl k then v else findCompanyEntry cl rest

/-- The role lookup loop (main.py lines 410-413): first key with
`role_key in job_role_lower or any(term in job_role_lower for term in
role_key.split())` wins. -/
def findRoleEntry (jl : String) : List (String × List FinalRes) → List FinalRes
  | [] => []
  | (k, v) :: rest =>
    if strIn k jl || (pySplit k).any (fun t => strIn t jl) then v
    else findRoleEntry jl rest

/-- The fallback lookup `get_improved_fallback_resources(company,
job_role)` (main.py lines 319-421). -/
def get_improved_fallback_resources (company : String)
    (job_role : Option String) : List FinalRes :=
  let cs := findCompanyEntry (strLower company) companyFallbackTable
  match job_role with
  | none => cs
  | some r =>
    if r = "" ∨ cs = [] then cs
    else
      let rs := findRoleEntry (strLower r) roleFallbackTable
      if rs = [] then cs else rs ++ cs

/-! ## Overview uncertainty post-processing (main.py lines 107-113) -/

/-- The fixed uncertainty phrase list (main.py line 108). -/
def uncertainty_phrases : List String :=
  ["I don't have", "I cannot", "I'm not able", "insufficient information"]

/-- The post-processing applied by `generate_company_overview` to the
model's overview text: if any uncertainty phrase occurs in
`overview.lower()`, prefix the qualifying sentence, else return the
overview unchanged (main.py lines 107-113). -/
def wrapOverview (company overview : String) : String :=
  if uncertainty_phrases.any (fun p => strIn p (strLower overview)) then
    "Based on available information about '" ++ company ++ "':\n\n" ++ overview
  else overview

/-! ## Helper lemmas about the filter loop -/

theorem processRepos_cons (cL : String) (kws : List String) (act : Bool)
    (terms : List String) (maxr : Nat) (repo : Repo) (rest : List Repo)
    (seen : List String) (acc : List Resource) :
    processRepos cL kws act terms maxr (repo :: rest) seen acc =
      match repo.html_url with
      | none => processRepos cL kws act terms maxr rest seen acc
      | some url =>
        if url ∈ seen then processRepos cL kws act terms maxr rest seen acc
        else if strIn cL (haystack repo) then
          if kws.any (fun k => strIn k (haystack repo)) then
            if maxr * 2 ≤ (acc ++ [mkRes act terms repo url]).length then
              acc ++ [mkRes act terms repo url]
            else
              processRepos cL kws act terms maxr rest (url :: seen)
                (acc ++ [mkRes act terms repo url])
          else if maxr * 2 ≤ acc.length then acc
          else processRepos cL kws act terms maxr rest seen acc
        else processRepos cL kws act terms maxr rest seen acc := rfl

/-- Soundness invariant of the filter loop: every resource in the output
is either carried over from the accumulator or derives from an input
record that passed both the company gate and the keyword gate, with its
`role_specific` flag computed from the role terms. -/
theorem processRepos_sound (cL : String) (kws : List String) (act : Bool)
    (terms : List String) (maxr : Nat) :
    ∀ (repos : List Repo) (seen : List String) (acc : List Resource)
      (res : Resource), res ∈ processRepos cL kws act terms maxr repos seen acc →
      res ∈ acc ∨ ∃ repo ∈ repos, repo.html_url = some res.url ∧
        repo.full_name = res.name ∧ strIn cL (haystack repo) = true ∧
        kws.any (fun k => strIn k (haystack repo)) = true ∧
        res.role_specific = (act && terms.any (fun t => strIn t (haystack repo))) := by
  intro repos
  induction repos with
  | nil => exact fun seen acc res h => Or.inl h
  | cons repo rest ih =>
    intro seen acc res h
    rw [processRepos_cons] at h
    have lift : res ∈ processRepos cL kws act terms maxr rest seen acc →
        res ∈ acc ∨ ∃ r ∈ repo :: rest, r.html_url = some res.url ∧
          r.full_name = res.name ∧ strIn cL (haystack r) = true ∧
          kws.any (fun k => strIn k (haystack r)) = true ∧
          res.role_specific = (act && terms.any (fun t => strIn t (haystack r))) := by
      intro h'
      rcases ih seen acc res h' with hl | ⟨r, hr, hp⟩
      · exact Or.inl hl
      · exact Or.inr ⟨r, List.mem_cons_of_mem _ hr, hp⟩
    cases hu : repo.html_url with
    | none => simp only [hu] at h; exact lift h
    | some url =>
      simp only [hu] at h
      by_cases h1 : url ∈ seen
      · rw [if_pos h1] at h; exact lift h
      · rw [if_neg h1] at h
        by_cases h2 : strIn cL (haystack repo) = true
        · rw [if_pos h2] at h
          by_cases h3 : kws.any (fun k => strIn k (haystack repo)) = true
          · rw [if_pos h3] at h
            have newOk : res ∈ acc ++ [mkRes act terms repo url] →
                res ∈ acc ∨ ∃ r ∈ repo :: rest, r.html_url = some res.url ∧
                  r.full_name = res.name ∧ strIn cL (haystack r) = true ∧
                  kws.any (fun k => strIn k (haystack r)) = true ∧
                  res.role_specific = (act && terms.any (fun t => strIn t (haystack r))) := by
              intro hres
              rcases List.mem_append.mp hres with hl | hr
              · exact Or.inl hl
              · have : res = mkRes act terms repo url := List.mem_singleton.mp hr
                subst this
                exact Or.inr ⟨repo, List.mem_cons_self _ _, hu, rfl, h2, h3, rfl⟩
            by_cases h4 : maxr * 2 ≤ (acc ++ [mkRes act terms repo url]).length
            · rw [if_pos h4] at h; exact newOk h
            · rw [if_neg h4] at h
              rcases ih _ _ res h with hl | ⟨r, hr, hp⟩
              · exact newOk hl
              · exact Or.inr ⟨r, List.mem_cons_of_mem _ hr, hp⟩
          · rw [if_neg h3] at h
            by_cases h5 : maxr * 2 ≤ acc.length
            · rw [if_pos h5] at h; exact Or.inl h
            · rw [if_neg h5] at h; exact lift h
        · rw [if_neg h2] at h; exact lift h
/-- Unfolding of the loop at a record with no URL: the record is skipped. -/
theorem processRepos_cons_none {cL : String} {kws : List String} {act : Bool}
    {terms : List String} {maxr : Nat} {repo : Repo} {rest : List Repo}
    {seen : List String} {acc : List Resource} (hu : repo.html_url = none) :
    processRepos cL kws act terms maxr (repo :: rest) seen acc =
      processRepos cL kws act terms maxr rest seen acc := by
  rw [processRepos_cons, hu]

/-- Unfolding of the loop at a record with a URL. -/
theorem processRepos_cons_some {cL : String} {kws : List String} {act : Bool}
    {terms : List String} {maxr : Nat} {repo : Repo} {rest : List Repo}
    {seen : List String} {acc : List Resource} {url : String}
    (hu : repo.html_url = some url) :
    processRepos cL kws act terms maxr (repo :: rest) seen acc =
      (if url ∈ seen then processRepos cL kws act terms maxr rest seen acc
       else if strIn cL (haystack repo) then
         if kws.any (fun k => strIn k (haystack repo)) then
           if maxr * 2 ≤ (acc ++ [mkRes act terms repo url]).length then
             acc ++ [mkRes act terms repo url]
           else
             processRepos cL kws act terms maxr rest (url :: seen)
               (acc ++ [mkRes act terms repo url])
         else if maxr * 2 ≤ acc.length then acc
         else processRepos cL kws act terms maxr rest seen acc
       else processRepos cL kws act terms maxr rest seen acc) := by
  rw [processRepos_cons, hu]

/-- Deduplication invariant: if every accumulated URL is recorded in
`seen_urls`, the URLs of the produced list are pairwise distinct. -/
theorem processRepos_nodup (cL : String) (kws : List String) (act : Bool)
    (terms : List String) (maxr : Nat) :
    ∀ (repos : List Repo) (seen : List String) (acc : List Resource),
    (∀ r ∈ acc, r.url ∈ seen) → (acc.map Resource.url).Nodup →
    ((processRepos cL kws act terms maxr repos seen acc).map Resource.url).Nodup := by
  intro repos
  induction repos with
  | nil => exact fun seen acc _ h2 => h2
  | cons repo rest ih =>
    intro seen acc hsub hnd
    cases hu : repo.html_url with
    | none => rw [processRepos_cons_none hu]; exact ih seen acc hsub hnd
    | some url =>
      rw [processRepos_cons_some hu]
      by_cases h1 : url ∈ seen
      · rw [if_pos h1]; exact ih seen acc hsub hnd
      · rw [if_neg h1]
        by_cases h2 : strIn cL (haystack repo) = true
        · rw [if_pos h2]
          by_cases h3 : kws.any (fun k => strIn k (haystack repo)) = true
          · rw [if_pos h3]
            have hn : ((acc ++ [mkRes act terms repo url]).map Resource.url).Nodup := by
              rw [List.map_append, List.nodup_append]
              refine ⟨hnd, List.nodup_singleton _, ?_⟩
              intro x hx hx'
              rcases List.mem_map.mp hx with ⟨r, hr, hrx⟩
              have hxu : x = url := List.mem_singleton.mp hx'
              exact h1 (hxu ▸ hrx ▸ hsub r hr)
            have hsub' : ∀ r ∈ acc ++ [mkRes act terms repo url], r.url ∈ url :: seen := by
              intro r hr
              rcases List.mem_append.mp hr with h | h
              · exact List.mem_cons_of_mem _ (hsub r h)
              · rw [List.mem_singleton.mp h]; exact List.mem_cons_self _ _
            by_cases h4 : maxr * 2 ≤ (acc ++ [mkRes act terms repo url]).length
            · rw [if_pos h4]; exact hn
            · rw [if_neg h4]; exact ih _ _ hsub' hn
          · rw [if_neg h3]
            by_cases h5 : maxr * 2 ≤ acc.length
            · rw [if_pos h5]; exact hnd
            · rw [if_neg h5]; exact ih seen acc hsub hnd
        · rw [if_neg h2]; exact ih seen acc hsub hnd

/-- Early stop: once the accepted list reaches `max_results * 2`, records
further down the input are never examined. -/
theorem processRepos_stop (cL : String) (kws : List String) (act : Bool)
    (terms : List String) (maxr : Nat) :
    ∀ (l1 l2 : List Repo) (seen : List String) (acc : List Resource),
    acc.length < maxr * 2 →
    maxr * 2 ≤ (processRepos cL kws act terms maxr l1 seen acc).length →
    processRepos cL kws act terms maxr (l1 ++ l2) seen acc =
      processRepos cL kws act terms maxr l1 seen acc := by
  intro l1
  induction l1 with
  | nil =>
    intro l2 seen acc hlt hge
    exact absurd hge (not_le.mpr hlt)
  | cons repo rest ih =>
    intro l2 seen acc hlt hge
    rw [List.cons_append]
    cases hu : repo.html_url with
    | none =>
      rw [processRepos_cons_none hu] at hge
      rw [processRepos_cons_none hu, processRepos_cons_none hu]
      exact ih l2 seen acc hlt hge
    | some url =>
      rw [processRepos_cons_some hu] at hge
      rw [processRepos_cons_some hu, processRepos_cons_some hu]
      by_cases h1 : url ∈ seen
      · rw [if_pos h1] at hge; rw [if_pos h1, if_pos h1]
        exact ih l2 seen acc hlt hge
      · rw [if_neg h1] at hge; rw [if_neg h1, if_neg h1]
        by_cases h2 : strIn cL (haystack repo) = true
        · rw [if_pos h2] at hge; rw [if_pos h2, if_pos h2]
          by_cases h3 : kws.any (fun k => strIn k (haystack repo)) = true
          · rw [if_pos h3] at hge; rw [if_pos h3, if_pos h3]
            by_cases h4 : maxr * 2 ≤ (acc ++ [mkRes act terms repo url]).length
            · rw [if_pos h4, if_pos h4]
            · rw [if_neg h4] at hge; rw [if_neg h4, if_neg h4]
              exact ih l2 _ _ (not_le.mp h4) hge
          · rw [if_neg h3] at hge; rw [if_neg h3, if_neg h3]
            by_cases h5 : maxr * 2 ≤ acc.length
            · rw [if_pos h5, if_pos h5]
            · rw [if_neg h5] at hge; rw [if_neg h5, if_neg h5]
              exact ih l2 seen acc hlt hge
        · rw [if_neg h2] at hge; rw [if_neg h2, if_neg h2]
          exact ih l2 seen acc hlt hge

/-- Erasure of a gate-rejected record: a record whose haystack fails the
company gate or the keyword gate leaves the loop state untouched, so
removing it from the input does not change the result. In particular a
rejected record never marks its URL as seen. -/
theorem processRepos_erase (cL : String) (kws : List String) (act : Bool)
    (terms : List String) (maxr : Nat) (a : Repo)
    (ha : strIn cL (haystack a) = false ∨
          kws.any (fun k => strIn k (haystack a)) = false) :
    ∀ (l1 l2 : List Repo) (seen : List String) (acc : List Resource),
    acc.length < maxr * 2 →
    processRepos cL kws act terms maxr (l1 ++ a :: l2) seen acc =
      processRepos cL kws act terms maxr (l1 ++ l2) seen acc := by
  intro l1
  induction l1 with
  | nil =>
    intro l2 seen acc hlt
    rw [List.nil_append, List.nil_append]
    cases hu : a.html_url with
    | none => rw [processRepos_cons_none hu]
    | some url =>
      rw [processRepos_cons_some hu]
      by_cases h1 : url ∈ seen
      · rw [if_pos h1]
      · rw [if_neg h1]
        rcases ha with ha | ha
        · rw [if_neg (by simp [ha])]
        · by_cases h2 : strIn cL (haystack a) = true
          · rw [if_pos h2, if_neg (by simp [ha]), if_neg (not_le.mpr hlt)]
          · rw [if_neg h2]
  | cons repo rest ih =>
    intro l2 seen acc hlt
    rw [List.cons_append, List.cons_append]
    cases hu : repo.html_url with
    | none =>
      rw [processRepos_cons_none hu, processRepos_cons_none hu]
      exact ih l2 seen acc hlt
    | some url =>
      rw [processRepos_cons_some hu, processRepos_cons_some hu]
      by_cases h1 : url ∈ seen
      · rw [if_pos h1, if_pos h1]; exact ih l2 seen acc hlt
      · rw [if_neg h1, if_neg h1]
        by_cases h2 : strIn cL (haystack repo) = true
        · rw [if_pos h2, if_pos h2]
          by_cases h3 : kws.any (fun k => strIn k (haystack repo)) = true
          · rw [if_pos h3, if_pos h3]
            by_cases h4 : maxr * 2 ≤ (acc ++ [mkRes act terms repo url]).length
            · rw [if_pos h4, if_pos h4]
            · rw [if_neg h4, if_neg h4]
              exact ih l2 _ _ (not_le.mp h4)
          · rw [if_neg h3, if_neg h3]
            by_cases h5 : maxr * 2 ≤ acc.length
            · rw [if_pos h5, if_pos h5]
            · rw [if_neg h5, if_neg h5]; exact ih l2 seen acc hlt
        · rw [if_neg h2, if_neg h2]; exact ih l2 seen acc hlt
/-- Congruence: two records with the same URL field, haystack and
`full_name` are treated identically by the loop, wherever they sit. -/
theorem processRepos_congr_mid (cL : String) (kws : List String) (act : Bool)
    (terms : List String) (maxr : Nat) (r1 r2 : Repo)
    (h1 : r1.html_url = r2.html_url) (h2 : haystack r1 = haystack r2)
    (h3 : r1.full_name = r2.full_name) :
    ∀ (l1 l2 : List Repo) (seen : List String) (acc : List Resource),
    processRepos cL kws act terms maxr (l1 ++ r1 :: l2) seen acc =
      processRepos cL kws act terms maxr (l1 ++ r2 :: l2) seen acc := by
  intro l1
  induction l1 with
  | nil =>
    intro l2 seen acc
    rw [List.nil_append, List.nil_append]
    cases hu : r1.html_url with
    | none =>
      rw [processRepos_cons_none hu, processRepos_cons_none (h1.symm.trans hu)]
    | some url =>
      rw [processRepos_cons_some hu, processRepos_cons_some (h1.symm.trans hu)]
      simp only [mkRes, h2, h3]
  | cons repo rest ih =>
    intro l2 seen acc
    rw [List.cons_append, List.cons_append]
    cases hu : repo.html_url with
    | none =>
      rw [processRepos_cons_none hu, processRepos_cons_none hu]
      exact ih l2 seen acc
    | some url =>
      rw [processRepos_cons_some hu, processRepos_cons_some hu]
      by_cases hc1 : url ∈ seen
      · rw [if_pos hc1, if_pos hc1]; exact ih l2 seen acc
      · rw [if_neg hc1, if_neg hc1]
        by_cases hc2 : strIn cL (haystack repo) = true
        · rw [if_pos hc2, if_pos hc2]
          by_cases hc3 : kws.any (fun k => strIn k (haystack repo)) = true
          · rw [if_pos hc3, if_pos hc3]
            by_cases hc4 : maxr * 2 ≤ (acc ++ [mkRes act terms repo url]).length
            · rw [if_pos hc4, if_pos hc4]
            · rw [if_neg hc4, if_neg hc4]; exact ih l2 _ _
          · rw [if_neg hc3, if_neg hc3]
            by_cases hc5 : maxr * 2 ≤ acc.length
            · rw [if_pos hc5, if_pos hc5]
            · rw [if_neg hc5, if_neg hc5]; exact ih l2 seen acc
        · rw [if_neg hc2, if_neg hc2]; exact ih l2 seen acc

/-- Every returned resource is the name/url projection of an accepted one. -/
theorem mem_get_exists (company : String) (jr : Option String) (maxr : Nat)
    (repos : List Repo) (res : FinalRes)
    (h : res ∈ get_github_resources company jr maxr repos) :
    ∃ x ∈ acceptedList company jr maxr repos, x.name = res.name ∧ x.url = res.url := by
  simp only [get_github_resources] at h
  by_cases he : repos.isEmpty
  · rw [if_pos he] at h; cases h
  · rw [if_neg he] at h
    rcases List.mem_map.mp h with ⟨x, hx, hfx⟩
    have hx' := List.take_subset _ _ hx
    have hxa : x ∈ acceptedList company jr maxr repos := by
      by_cases hr : roleActive jr = true
      · rw [if_pos hr] at hx'
        rcases List.mem_append.mp hx' with h' | h'
        · exact (List.mem_filter.mp h').1
        · exact (List.mem_filter.mp h').1
      · rw [if_neg hr] at hx'; exact hx'
    subst hfx
    exact ⟨x, hxa, rfl, rfl⟩

/-- A substring's characters all occur in the haystack. -/
theorem occursIn_subset : ∀ (n h : List Char), occursIn n h = true → ∀ c ∈ n, c ∈ h := by
  intro n h
  induction h with
  | nil =>
    intro hin c hc
    rw [occursIn] at hin
    rw [List.isEmpty_iff.mp hin] at hc
    cases hc
  | cons a t ih =>
    intro hin c hc
    rw [occursIn, Bool.or_eq_true] at hin
    rcases hin with hp | hp
    · exact (List.isPrefixOf_iff_prefix.mp hp).subset hc
    · exact List.mem_cons_of_mem _ (ih hp c hc)
/-- Round trip of `Char.ofNat` below the surrogate range. -/
theorem toNat_charOfNat (n : Nat) (h : n < 55296) : (Char.ofNat n).toNat = n := by
  have hv : n.isValidChar := Or.inl h
  simp [Char.ofNat, hv, Char.ofNatAux, Char.toNat, UInt32.toNat, UInt32.ofNatCore]

/-- Lowercasing never produces the capital letter `I`. -/
theorem charLower_ne_capI (c : Char) : charLower c ≠ 'I' := by
  unfold charLower
  split_ifs with h
  · intro heq
    have h1 : 65 ≤ c.toNat := by
      have := h.1
      simp only [Char.le_def, UInt32.le_def, BitVec.le_def] at this
      exact this
    have h2 : c.toNat ≤ 90 := by
      have := h.2
      simp only [Char.le_def, UInt32.le_def, BitVec.le_def] at this
      exact this
    have h3 : (Char.ofNat (c.toNat + 32)).toNat = c.toNat + 32 :=
      toNat_charOfNat _ (by omega)
    rw [heq] at h3
    have h4 : ('I' : Char).toNat = 73 := by decide
    omega
  · intro heq
    exact h (by rw [heq]; exact ⟨by decide, by decide⟩)
/-! ## The claims -/

/-- C1: for every input list of repository records, company name and
optional job role, every record returned by `get_github_resources` derives
from an input record whose lowercased name-plus-description haystack
contains the lowercased company name — a record failing the company-name
containment gate is never retained, even when it contains every interview
keyword. -/
theorem spec_C1 (company : String) (jr : Option String) (maxr : Nat)
    (repos : List Repo) (res : FinalRes)
    (h : res ∈ get_github_resources company jr maxr repos) :
    ∃ repo ∈ repos, repo.html_url = some res.url ∧ repo.full_name = res.name ∧
      strIn (strLower company) (haystack repo) = true := by
  rcases mem_get_exists company jr maxr repos res h with ⟨x, hx, hn, hu⟩
  rcases processRepos_sound (strLower company) (effKeywords jr) (roleActive jr)
      (roleTermsOf jr) maxr repos [] [] x hx with h0 | ⟨repo, hr, e1, e2, e3, _, _⟩
  · cases h0
  · exact ⟨repo, hr, by rw [e1, hu], by rw [e2, hn], e3⟩

/-- Witness for C1 at a concrete input. -/
theorem spec_C1_w :
    (⟨"o/a", "u"⟩ : FinalRes) ∈ get_github_resources "acme" none 8
      [⟨"acme leetcode", "o/a", some "u", none⟩] ∧
    strIn (strLower "acme") (haystack ⟨"acme leetcode", "o/a", some "u", none⟩) = true :=
  ⟨by decide, by
    rcases spec_C1 "acme" none 8 [⟨"acme leetcode", "o/a", some "u", none⟩]
        ⟨"o/a", "u"⟩ (by decide) with ⟨repo, hrep, -, -, hc⟩
    rw [List.mem_singleton.mp hrep] at hc
    exact hc⟩

/-- C2: every record returned by `get_github_resources` derives from an
input record whose haystack contains at least one effective interview
keyword (the fixed eleven-phrase list, extended with the normalised role
text and its space-stripped form when a role is supplied) — and that
record also passes the company-name gate: the two gates are independent
ANDed conditions and both must pass for a record to be retained. -/
theorem spec_C2 (company : String) (jr : Option String) (maxr : Nat)
    (repos : List Repo) (res : FinalRes)
    (h : res ∈ get_github_resources company jr maxr repos) :
    ∃ repo ∈ repos, repo.html_url = some res.url ∧ repo.full_name = res.name ∧
      (effKeywords jr).any (fun k => strIn k (haystack repo)) = true ∧
      strIn (strLower company) (haystack repo) = true := by
  rcases mem_get_exists company jr maxr repos res h with ⟨x, hx, hn, hu⟩
  rcases processRepos_sound (strLower company) (effKeywords jr) (roleActive jr)
      (roleTermsOf jr) maxr repos [] [] x hx with h0 | ⟨repo, hr, e1, e2, e3, e4, _⟩
  · cases h0
  · exact ⟨repo, hr, by rw [e1, hu], by rw [e2, hn], e4, e3⟩

/-- Witness for C2 at a concrete input. -/
theorem spec_C2_w :
    (⟨"o/a", "u"⟩ : FinalRes) ∈ get_github_resources "acme" none 8
      [⟨"acme leetcode", "o/a", some "u", none⟩] ∧
    (effKeywords none).any
      (fun k => strIn k (haystack ⟨"acme leetcode", "o/a", some "u", none⟩)) = true :=
  ⟨by decide, by
    rcases spec_C2 "acme" none 8 [⟨"acme leetcode", "o/a", some "u", none⟩]
        ⟨"o/a", "u"⟩ (by decide) with ⟨repo, hrep, -, -, hk, -⟩
    rw [List.mem_singleton.mp hrep] at hk
    exact hk⟩

/-- C3: the relevance filter deduplicates by URL — the returned list never
contains two entries with the same URL, and of two input records with the
same URL (and different names), only the first-encountered is retained,
as the concrete two-record instance shows. -/
theorem spec_C3 :
    (∀ (company : String) (jr : Option String) (maxr : Nat) (repos : List Repo),
      ((get_github_resources company jr maxr repos).map FinalRes.url).Nodup) ∧
    get_github_resources "acme" none 8
      [⟨"acme leetcode", "one", some "u", none⟩,
       ⟨"acme interview prep", "two", some "u", some "x"⟩] = [⟨"one", "u"⟩] := by
  constructor
  · intro company jr maxr repos
    simp only [get_github_resources]
    by_cases he : repos.isEmpty
    · rw [if_pos he]; exact List.nodup_nil
    · rw [if_neg he]
      have hnd : ((acceptedList company jr maxr repos).map Resource.url).Nodup :=
        processRepos_nodup _ _ _ _ _ repos [] []
          (fun r hr => absurd hr (List.not_mem_nil r)) List.nodup_nil
      have hsorted :
          ((if roleActive jr then sortRoleFirst (acceptedList company jr maxr repos)
            else acceptedList company jr maxr repos).map Resource.url).Nodup := by
        by_cases hr : roleActive jr = true
        · rw [if_pos hr]
          exact ((List.filter_append_perm _ _).map Resource.url).nodup_iff.mpr hnd
        · rw [if_neg hr]; exact hnd
      have htake :
          (((if roleActive jr then sortRoleFirst (acceptedList company jr maxr repos)
            else acceptedList company jr maxr repos).take maxr).map Resource.url).Nodup :=
        List.Nodup.sublist (List.Sublist.map Resource.url (List.take_sublist _ _)) hsorted
      rw [List.map_map]
      exact htake
  · decide

/-- C4: with an active job role the accepted list is stably reordered —
`sortRoleFirst` is a permutation placing every `role_specific` entry
before every non-`role_specific` one while preserving the relative order
inside each group (its restriction to either group is the plain filter),
and `get_github_resources` post-composes exactly this sort; with no
active role the accepted list is returned in original order; and the
concrete list `[A(false), B(true), C(false), D(true)]` sorts to
`[B, D, A, C]`. -/
theorem spec_C4 :
    (∀ l : List Resource, (sortRoleFirst l).Perm l) ∧
    (∀ l : List Resource,
      List.Pairwise (fun a b => b.role_specific = true → a.role_specific = true)
        (sortRoleFirst l)) ∧
    (∀ l : List Resource, (sortRoleFirst l).filter (fun r => r.role_specific) =
      l.filter (fun r => r.role_specific)) ∧
    (∀ l : List Resource, (sortRoleFirst l).filter (fun r => !r.role_specific) =
      l.filter (fun r => !r.role_specific)) ∧
    (∀ (company : String) (jr : Option String) (maxr : Nat) (repos : List Repo),
      roleActive jr = true →
      get_github_resources company jr maxr repos =
        ((sortRoleFirst (acceptedList company jr maxr repos)).take maxr).map
          (fun r => ⟨r.name, r.url⟩)) ∧
    (∀ (company : String) (jr : Option String) (maxr : Nat) (repos : List Repo),
      roleActive jr = false →
      get_github_resources company jr maxr repos =
        ((acceptedList company jr maxr repos).take maxr).map
          (fun r => ⟨r.name, r.url⟩)) ∧
    sortRoleFirst [⟨"A", "ua", false⟩, ⟨"B", "ub", true⟩,
        ⟨"C", "uc", false⟩, ⟨"D", "ud", true⟩] =
      [⟨"B", "ub", true⟩, ⟨"D", "ud", true⟩, ⟨"A", "ua", false⟩, ⟨"C", "uc", false⟩] := by
  refine ⟨?_, ?_, ?_, ?_, ?_, ?_, by decide⟩
  · intro l; exact List.filter_append_perm _ l
  · intro l
    simp only [sortRoleFirst]
    rw [List.pairwise_append]
    refine ⟨List.pairwise_of_forall_mem_list ?_,
      List.pairwise_of_forall_mem_list ?_, ?_⟩
    · intro a ha b _ _; exact (List.mem_filter.mp ha).2
    · intro a _ b hb hbt
      have hbf := (List.mem_filter.mp hb).2
      rw [hbt] at hbf
      simp at hbf
    · intro a ha b _ _; exact (List.mem_filter.mp ha).2
  · intro l
    simp [sortRoleFirst, List.filter_append, List.filter_filter,
      Bool.and_self, Bool.and_not_self]
  · intro l
    simp [sortRoleFirst, List.filter_append, List.filter_filter,
      Bool.and_self, Bool.not_and_self]
  · intro company jr maxr repos hr
    simp only [get_github_resources]
    by_cases he : repos.isEmpty
    · rw [if_pos he]
      have h0 : repos = [] := List.isEmpty_iff.mp he
      subst h0
      simp [acceptedList, processRepos, sortRoleFirst]
    · rw [if_neg he, if_pos hr]
  · intro company jr maxr repos hr
    simp only [get_github_resources]
    by_cases he : repos.isEmpty
    · rw [if_pos he]
      have h0 : repos = [] := List.isEmpty_iff.mp he
      subst h0
      simp [acceptedList, processRepos]
    · rw [if_neg he, if_neg (by simp [hr] : ¬roleActive jr = true)]

/-- Witness for C4's role-sorted branch at a concrete input. -/
theorem spec_C4_w :
    roleActive (some "java") = true ∧
    get_github_resources "acme" (some "java") 8
        [⟨"acme java leetcode", "o/a", some "u", none⟩] =
      ((sortRoleFirst (acceptedList "acme" (some "java") 8
          [⟨"acme java leetcode", "o/a", some "u", none⟩])).take 8).map
        (fun r => ⟨r.name, r.url⟩) :=
  ⟨by decide, spec_C4.2.2.2.2.1 "acme" (some "java") 8
    [⟨"acme java leetcode", "o/a", some "u", none⟩] (by decide)⟩

/-- C5: the filter returns at most `max_results` entries — the first
`max_results` of the (possibly role-sorted) accepted list — and scanning
stops early once the accepted count reaches `2 * max_results`: appending
any further input records after that point does not change the result. -/
theorem spec_C5 :
    (∀ (company : String) (jr : Option String) (maxr : Nat) (repos : List Repo),
      (get_github_resources company jr maxr repos).length ≤ maxr) ∧
    (∀ (company : String) (jr : Option String) (maxr : Nat) (l1 l2 : List Repo),
      0 < maxr → maxr * 2 ≤ (acceptedList company jr maxr l1).length →
      get_github_resources company jr maxr (l1 ++ l2) =
        get_github_resources company jr maxr l1) := by
  constructor
  · intro company jr maxr repos
    simp only [get_github_resources]
    by_cases he : repos.isEmpty
    · rw [if_pos he]; exact Nat.zero_le maxr
    · rw [if_neg he]
      rw [List.length_map, List.length_take]
      exact min_le_left _ _
  · intro company jr maxr l1 l2 hm hge
    have hstop : processRepos (strLower company) (effKeywords jr) (roleActive jr)
        (roleTermsOf jr) maxr (l1 ++ l2) [] [] =
        processRepos (strLower company) (effKeywords jr) (roleActive jr)
          (roleTermsOf jr) maxr l1 [] [] :=
      processRepos_stop _ _ _ _ _ l1 l2 [] [] (by simp; omega) hge
    have hacc : acceptedList company jr maxr (l1 ++ l2) =
        acceptedList company jr maxr l1 := hstop
    have hne : l1.isEmpty = false := by
      cases l1 with
      | nil =>
        exfalso
        simp only [acceptedList, processRepos, List.length_nil] at hge
        omega
      | cons a t => rfl
    have hne2 : (l1 ++ l2).isEmpty = false := by
      cases l1 with
      | nil => simp at hne
      | cons a t => rfl
    simp only [get_github_resources, hacc, hne, hne2, Bool.false_eq_true, if_false]

/-- Witness for C5's early stop at a concrete input with `max_results = 1`. -/
theorem spec_C5_w :
    (0:Nat) < 1 ∧
    1 * 2 ≤ (acceptedList "acme" none 1
      [⟨"acme leetcode", "A", some "u1", none⟩,
       ⟨"acme leetcode two", "B", some "u2", none⟩]).length ∧
    get_github_resources "acme" none 1
      ([⟨"acme leetcode", "A", some "u1", none⟩,
        ⟨"acme leetcode two", "B", some "u2", none⟩] ++
       [⟨"acme leetcode three", "C", some "u3", none⟩]) =
    get_github_resources "acme" none 1
      [⟨"acme leetcode", "A", some "u1", none⟩,
       ⟨"acme leetcode two", "B", some "u2", none⟩] :=
  ⟨by decide, by decide,
    spec_C5.2 "acme" none 1
      [⟨"acme leetcode", "A", some "u1", none⟩,
       ⟨"acme leetcode two", "B", some "u2", none⟩]
      [⟨"acme leetcode three", "C", some "u3", none⟩] (by decide) (by decide)⟩

/-- C6 counterexample: with company `"facebook"` and role `"frontend"`,
the fallback table does not return only the company entries (which is
what it returns with no role): a `"frontend"` role mapping exists and its
entries are prepended. -/
theorem spec_C6_cex :
    get_improved_fallback_resources "facebook" (some "frontend") ≠
      get_improved_fallback_resources "facebook" none := by decide

/-- C6 (amended): `"Facebook"` in any letter case with no role returns
exactly the three Meta/Facebook entries unmodified; `"facebook"` with
role `"frontend"` returns the two `"frontend"` role-mapping entries
prepended to the three company entries, since a `"frontend"` role mapping
does exist in the role table. -/
theorem spec_C6 (s : String) (h : strLower s = "facebook") :
    get_improved_fallback_resources s none =
      [⟨"Meta/Facebook Interview Questions", "https://github.com/twowaits/SDE-Interview-Questions/tree/master/Facebook"⟩,
       ⟨"Meta Technical Interview Guide", "https://github.com/khanhnamle1994/cracking-the-data-science-interview"⟩,
       ⟨"Facebook Interview Resources", "https://github.com/krishnadey30/LeetCode-Questions-CompanyWise/blob/master/facebook_alltime.txt"⟩] ∧
    get_improved_fallback_resources "facebook" (some "frontend") =
      [⟨"Frontend Interview Questions", "https://github.com/h5bp/Front-end-Developer-Interview-Questions"⟩,
       ⟨"Frontend Interview Handbook", "https://github.com/yangshun/front-end-interview-handbook"⟩] ++
      [⟨"Meta/Facebook Interview Questions", "https://github.com/twowaits/SDE-Interview-Questions/tree/master/Facebook"⟩,
       ⟨"Meta Technical Interview Guide", "https://github.com/khanhnamle1994/cracking-the-data-science-interview"⟩,
       ⟨"Facebook Interview Resources", "https://github.com/krishnadey30/LeetCode-Questions-CompanyWise/blob/master/facebook_alltime.txt"⟩] := by
  constructor
  · simp only [get_improved_fallback_resources]
    rw [h]
    decide
  · decide

/-- Witness for C6 at the mixed-case company name `"FaceBook"`. -/
theorem spec_C6_w :
    strLower "FaceBook" = "facebook" ∧
    get_improved_fallback_resources "FaceBook" none =
      [⟨"Meta/Facebook Interview Questions", "https://github.com/twowaits/SDE-Interview-Questions/tree/master/Facebook"⟩,
       ⟨"Meta Technical Interview Guide", "https://github.com/khanhnamle1994/cracking-the-data-science-interview"⟩,
       ⟨"Facebook Interview Resources", "https://github.com/krishnadey30/LeetCode-Questions-CompanyWise/blob/master/facebook_alltime.txt"⟩] :=
  ⟨by decide, (spec_C6 "FaceBook" (by decide)).1⟩

/-- C7 (code-bug evaluation): a response that literally contains the
uncertainty phrase `"I don't have"` is returned unchanged — not prefixed
with the qualifying sentence — because the code searches the capitalised
phrases inside the lowercased response, where a capital `I` can never
occur; only the all-lowercase phrase `"insufficient information"` can
ever trigger the prefix. -/
theorem spec_C7 :
    strIn "I don't have" "I don't have information about this company." = true ∧
    wrapOverview "Acme" "I don't have information about this company." =
      "I don't have information about this company." ∧
    wrapOverview "Acme" "There is insufficient information about this company." =
      "Based on available information about 'Acme':\n\nThere is insufficient information about this company." ∧
    (∀ overview : String, strIn "I don't have" (strLower overview) = false) := by
  refine ⟨by decide, by decide, by decide, ?_⟩
  intro o
  by_contra hcon
  rw [Bool.not_eq_false] at hcon
  have hI : ('I' : Char) ∈ ("I don't have" : String).data := by decide
  have hmem : ('I' : Char) ∈ (strLower o).data := occursIn_subset _ _ hcon 'I' hI
  have hmap : ('I' : Char) ∈ o.data.map charLower := hmem
  rcases List.mem_map.mp hmap with ⟨c, -, hc⟩
  exact charLower_ne_capI c hc

/-- C8: a record whose `description` is missing (`None`) is treated
exactly like one whose description is the empty string — it is never
dropped for that reason and is still evaluated against both gates, as the
concrete accepted record with no description shows. -/
theorem spec_C8 :
    (∀ (company : String) (jr : Option String) (maxr : Nat) (l1 l2 : List Repo)
       (nm fn : String) (u : Option String),
      get_github_resources company jr maxr (l1 ++ (⟨nm, fn, u, none⟩ : Repo) :: l2) =
        get_github_resources company jr maxr (l1 ++ (⟨nm, fn, u, some ""⟩ : Repo) :: l2)) ∧
    get_github_resources "acme" none 8 [⟨"acme leetcode", "o/a", some "u", none⟩] =
      [⟨"o/a", "u"⟩] := by
  constructor
  · intro company jr maxr l1 l2 nm fn u
    have hacc : acceptedList company jr maxr (l1 ++ (⟨nm, fn, u, none⟩ : Repo) :: l2) =
        acceptedList company jr maxr (l1 ++ (⟨nm, fn, u, some ""⟩ : Repo) :: l2) :=
      processRepos_congr_mid (strLower company) (effKeywords jr) (roleActive jr)
        (roleTermsOf jr) maxr ⟨nm, fn, u, none⟩ ⟨nm, fn, u, some ""⟩
        rfl rfl rfl l1 l2 [] []
    have hne : (l1 ++ (⟨nm, fn, u, none⟩ : Repo) :: l2).isEmpty = false := by
      cases l1 <;> rfl
    have hne2 : (l1 ++ (⟨nm, fn, u, some ""⟩ : Repo) :: l2).isEmpty = false := by
      cases l1 <;> rfl
    simp only [get_github_resources, hacc, hne, hne2, Bool.false_eq_true, if_false]
  · decide

/-- C9: a URL is marked seen only when its record is accepted, so a
record rejected by the company-name or keyword gate can be deleted from
the input without changing the result — in particular it does not
suppress a later record with the same URL that passes both gates. -/
theorem spec_C9 (company : String) (jr : Option String) (maxr : Nat)
    (l1 l2 : List Repo) (a : Repo) (hm : 0 < maxr)
    (ha : gateRejected company jr a = true) :
    get_github_resources company jr maxr (l1 ++ a :: l2) =
      get_github_resources company jr maxr (l1 ++ l2) := by
  have ha' : strIn (strLower company) (haystack a) = false ∨
      (effKeywords jr).any (fun k => strIn k (haystack a)) = false := by
    simpa only [gateRejected, Bool.or_eq_true, Bool.not_eq_true'] using ha
  have hacc : acceptedList company jr maxr (l1 ++ a :: l2) =
      acceptedList company jr maxr (l1 ++ l2) :=
    processRepos_erase _ _ _ _ _ a ha' l1 l2 [] [] (by simp; omega)
  by_cases hemp : (l1 ++ l2).isEmpty = true
  · have h0 : l1 ++ l2 = [] := List.isEmpty_iff.mp hemp
    rcases List.append_eq_nil.mp h0 with ⟨h1, h2⟩
    subst h1; subst h2
    have hacc0 : acceptedList company jr maxr [a] = [] := by
      have h3 : acceptedList company jr maxr [a] = acceptedList company jr maxr [] := by
        simpa using hacc
      rw [h3]
      rfl
    show get_github_resources company jr maxr [a] =
      get_github_resources company jr maxr []
    simp [get_github_resources, hacc0, sortRoleFirst]
  · have hne1 : (l1 ++ a :: l2).isEmpty = false := by cases l1 <;> rfl
    have hne2 : (l1 ++ l2).isEmpty = false := by simpa using hemp
    simp only [get_github_resources, hacc, hne1, hne2, Bool.false_eq_true, if_false]

/-- Witness for C9: a record failing the company gate is followed by a
record with the very same URL that passes both gates; the rejected
occurrence does not suppress the later one. -/
theorem spec_C9_w :
    (0:Nat) < 8 ∧
    gateRejected "acme" none ⟨"other leetcode", "R", some "u0", none⟩ = true ∧
    get_github_resources "acme" none 8
      ([] ++ (⟨"other leetcode", "R", some "u0", none⟩ : Repo) ::
        [⟨"acme leetcode", "o/a", some "u0", none⟩]) =
    get_github_resources "acme" none 8
      ([] ++ [⟨"acme leetcode", "o/a", some "u0", none⟩]) :=
  ⟨by decide, by decide,
    spec_C9 "acme" none 8 [] [⟨"acme leetcode", "o/a", some "u0", none⟩]
      ⟨"other leetcode", "R", some "u0", none⟩ (by decide) (by decide)⟩

/-- C10: a whitespace-only job role behaves exactly like no role at all —
the result, the query templates and the effective keyword list coincide
with those for role `None`, and every accepted record carries
`role_specific = false`. -/
theorem spec_C10 (company r : String) (maxr : Nat) (repos : List Repo)
    (h : pyStrip r = "") :
    get_github_resources company (some r) maxr repos =
      get_github_resources company none maxr repos ∧
    buildQueries company (some r) = buildQueries company none ∧
    effKeywords (some r) = effKeywords none ∧
    ∀ res ∈ acceptedList company (some r) maxr repos, res.role_specific = false := by
  have ha : roleActive (some r) = false := by
    simp [roleActive]
    exact fun _ => h
  have hk : effKeywords (some r) = effKeywords none := by
    simp only [effKeywords, ha]
    rfl
  have ht : roleTermsOf (some r) = roleTermsOf none := by
    simp only [roleTermsOf, roleNorm, Option.getD_some, Option.getD_none, h]
    rfl
  have hacc : acceptedList company (some r) maxr repos =
      acceptedList company none maxr repos := by
    simp only [acceptedList, ha, hk, ht]
    rfl
  refine ⟨?_, ?_, hk, ?_⟩
  · simp only [get_github_resources, hacc, ha]
    rfl
  · simp only [buildQueries, ha]
    rfl
  · intro res hres
    rcases processRepos_sound (strLower company) (effKeywords (some r))
        (roleActive (some r)) (roleTermsOf (some r)) maxr repos [] [] res hres with
      h0 | ⟨repo, -, -, -, -, -, hrs⟩
    · cases h0
    · rw [hrs, ha]
      rfl

/-- Witness for C10 at the whitespace role `" "`. -/
theorem spec_C10_w :
    pyStrip " " = "" ∧
    get_github_resources "acme" (some " ") 8
        [⟨"acme leetcode", "o/a", some "u", none⟩] =
      get_github_resources "acme" none 8 [⟨"acme leetcode", "o/a", some "u", none⟩] :=
  ⟨by decide,
    (spec_C10 "acme" " " 8 [⟨"acme leetcode", "o/a", some "u", none⟩] (by decide)).1⟩
end InterviewPrep
